import Mathlib

/-
Verification of the pomidor lexer: a shallow embedding of `src/token/mod.rs`
and `src/lexer/mod.rs`.

Strings are embedded as `List Char`, and the scanner's byte offset as the
index of a character in that list: every byte offset the Rust code ever
stores is the UTF-8 byte length of a prefix of characters, so the two
indexings are in bijection and all observable output (token kinds, literal
texts, line numbers, token counts) is preserved.  Byte-counted quantities
(`char::len_utf8`) are recovered through `len_utf8` / `utf8_len` below.
-/

set_option maxHeartbeats 1000000

namespace Pomidor

/-- ASCII letter class, the `[A-Za-z]` part of the identifier pattern in
`TOKEN_REGEXP`. -/
def is_ascii_letter (c : Char) : Bool :=
  (0x41 ≤ c.toNat && c.toNat ≤ 0x5A) || (0x61 ≤ c.toNat && c.toNat ≤ 0x7A)

/-- ASCII decimal digit. -/
def is_ascii_digit (c : Char) : Bool :=
  0x30 ≤ c.toNat && c.toNat ≤ 0x39

/-- Executable stand-in for the regex crate's `\d` class (Unicode `Nd`, the
crate's default Unicode mode): ASCII digits plus the Arabic-Indic digits
U+0660..U+0669.  The full `Nd` class contains further decimal-digit ranges
whose tables cannot be transcribed here, so properties of the `\d` class
itself are stated parametrically in the class (the `_w` definitions below) and
this stand-in only instantiates them for concrete computation; it is in any
case a strict superset of the ASCII digits. -/
def is_nd_digit (c : Char) : Bool :=
  is_ascii_digit c || (0x660 ≤ c.toNat && c.toNat ≤ 0x669)

/-- Executable stand-in for the regex crate's Unicode-aware `\w` class
(`Alphabetic ∪ Mark ∪ Nd ∪ Connector_Punctuation ∪ Join_Control`): ASCII
letters, underscore, the decimal digits of `is_nd_digit`, and the basic
Cyrillic letters U+0401, U+0410..U+044F, U+0451.  The full Unicode class is
far larger (Greek, CJK, marks, further digits, connector punctuation), so
properties of the `\w` class itself are stated parametrically in the class
(the `_w` definitions below) and this stand-in only instantiates them for
concrete computation; it is in any case a strict superset of the ASCII word
characters `[A-Za-z0-9_]`. -/
def is_word_char (c : Char) : Bool :=
  is_ascii_letter c || is_nd_digit c || c == '_' ||
  (0x410 ≤ c.toNat && c.toNat ≤ 0x44F) || c.toNat == 0x401 || c.toNat == 0x451

/-- Unicode `White_Space` property, the class tested by Rust's
`char::is_whitespace` in `skip_whitespaces`; this list of code points is
complete for that property. -/
def is_rust_whitespace (c : Char) : Bool :=
  c.toNat == 0x09 || c.toNat == 0x0A || c.toNat == 0x0B || c.toNat == 0x0C ||
  c.toNat == 0x0D || c.toNat == 0x20 || c.toNat == 0x85 || c.toNat == 0xA0 ||
  c.toNat == 0x1680 || (0x2000 ≤ c.toNat && c.toNat ≤ 0x200A) ||
  c.toNat == 0x2028 || c.toNat == 0x2029 || c.toNat == 0x202F ||
  c.toNat == 0x205F || c.toNat == 0x3000

/-- Byte length of one character in UTF-8, Rust's `char::len_utf8`. -/
def len_utf8 (c : Char) : Nat :=
  if c.toNat < 0x80 then 1 else if c.toNat < 0x800 then 2
  else if c.toNat < 0x10000 then 3 else 4

/-- UTF-8 byte length of a character sequence. -/
def utf8_len (cs : List Char) : Nat := (cs.map len_utf8).sum

/-- The `Spec` enum of punctuation/operator token kinds. -/
inductive Spec where
  | Assign | Plus | Minus | Bang | Asterisk | Slash | Lt | Gt
  | Comma | Semicolon | Lparen | Rparen | Lbrace | Rbrace | Equal | NotEqual
  deriving DecidableEq

/-- The `Literal` enum of literal token kinds. -/
inductive Literal where
  | Ident | Int
  deriving DecidableEq

/-- The `Keyword` enum of reserved-word token kinds. -/
inductive Keyword where
  | Function | Let | True | False | If | Else | Return
  deriving DecidableEq

/-- The `TokenType` enum. -/
inductive TokenType where
  | Spec (s : Spec)
  | Literal (l : Literal)
  | Keyword (k : Keyword)
  | Illegal
  deriving DecidableEq

/-- The `Token` struct: kind, optional literal text, zero-based line. -/
structure Token where
  token_type : TokenType
  literal : Option (List Char)
  line : Nat
  deriving DecidableEq

/-- The `TokenPos` struct: a classifier answer, kind plus end offset
(field `end` in the source; `end` is reserved in Lean, hence `endp`). -/
structure TokenPos where
  token_type : TokenType
  endp : Nat
  deriving DecidableEq

/-- `Spec::from_int`. -/
def Spec.from_int (i : Nat) : Option Spec :=
  match i with
  | 0 => some .Assign
  | 1 => some .Plus
  | 2 => some .Minus
  | 3 => some .Bang
  | 4 => some .Asterisk
  | 5 => some .Slash
  | 6 => some .Lt
  | 7 => some .Gt
  | 8 => some .Comma
  | 9 => some .Semicolon
  | 10 => some .Lparen
  | 11 => some .Rparen
  | 12 => some .Lbrace
  | 13 => some .Rbrace
  | 14 => some .Equal
  | 15 => some .NotEqual
  | _ => none

/-- `Literal::from_int`. -/
def Literal.from_int (i : Nat) : Option Literal :=
  match i with
  | 0 => some .Ident
  | 1 => some .Int
  | _ => none

/-- `Keyword::from_int`. -/
def Keyword.from_int (i : Nat) : Option Keyword :=
  match i with
  | 0 => some .Function
  | 1 => some .Let
  | 2 => some .True
  | 3 => some .False
  | 4 => some .If
  | 5 => some .Else
  | 6 => some .Return
  | _ => none

/-- The constant `SPEC = "=+-!*/<>,;(){}"` as its character sequence. -/
def SPEC : List Char :=
  ['=', '+', '-', '!', '*', '/', '<', '>', ',', ';', '(', ')', '{', '}']

/-- The constant `SPEC_PATTERNS = ["==", "!="]`. -/
def SPEC_PATTERNS : List (List Char) := [['=', '='], ['!', '=']]

/-- The constant `KEYWORDS = ["fn","let","true","false","if","else","return"]`. -/
def KEYWORDS : List (List Char) :=
  [String.toList "fn", String.toList "let", String.toList "true",
   String.toList "false", String.toList "if", String.toList "else",
   String.toList "return"]

/-- Spelling of each reserved word, the inverse reading of `KEYWORDS` and
`Keyword::from_int`. -/
def keyword_string : Keyword → List Char
  | .Function => String.toList "fn"
  | .Let => String.toList "let"
  | .True => String.toList "true"
  | .False => String.toList "false"
  | .If => String.toList "if"
  | .Else => String.toList "else"
  | .Return => String.toList "return"

/-- Rust slice `&input[s..e]` as a character sequence. -/
def slice_chars (cs : List Char) (s e : Nat) : List Char := (cs.drop s).take (e - s)

/-- Rust `str::starts_with` with a literal pattern: `starts_with s p` holds
when `p` is a prefix of `s`. -/
def starts_with : List Char → List Char → Bool
  | _, [] => true
  | [], _ :: _ => false
  | c :: cr, p :: pr => c == p && starts_with cr pr

/-- Rust `str::find(char)` on the all-ASCII `SPEC` string: index of the first
occurrence of the character, if any. -/
def find_char_idx : List Char → Char → Option Nat
  | [], _ => none
  | c :: cs, ch => if c == ch then some 0 else (find_char_idx cs ch).map (· + 1)

/-- The keyword loop inside `literal_token_matcher`: index of the first keyword
equal to the matched substring, if any. -/
def kw_lookup : List (List Char) → List Char → Option Nat
  | [], _ => none
  | kw :: rest, sp => if kw == sp then some 0 else (kw_lookup rest sp).map (· + 1)

/-- Prefix matcher embedded from `TOKEN_REGEXP[0] = "^[A-Za-z]\\w*"`,
parametric in the `\w` character class `w` (the regex crate's Unicode-aware
word-character class, whose full table cannot be transcribed here): one ASCII
letter followed by the maximal (greedy) run of `w` characters.  Returns the
character length of the matched prefix. -/
def match_ident_re_w (w : Char → Bool) : List Char → Option Nat
  | [] => none
  | c :: rest =>
    if is_ascii_letter c then some (1 + (rest.takeWhile w).length)
    else none

/-- The identifier matcher at the modelled word-character class, used by the
executable scanner. -/
def match_ident_re : List Char → Option Nat := match_ident_re_w is_word_char

/-- Prefix matcher embedded from `TOKEN_REGEXP[1] = "^\\d+"`, parametric in
the `\d` character class `d` (Unicode `Nd`): the maximal nonempty run of `d`
characters.  Returns the character length of the match. -/
def match_int_re_w (d : Char → Bool) (cs : List Char) : Option Nat :=
  if (cs.takeWhile d).length == 0 then none
  else some (cs.takeWhile d).length

/-- The integer matcher at the modelled digit class, used by the executable
scanner. -/
def match_int_re : List Char → Option Nat := match_int_re_w is_nd_digit

/-- The two compiled patterns of `TOKEN_REGEXP`, in source order, parametric
in the two character classes. -/
def token_regexps_w (w d : Char → Bool) : List (List Char → Option Nat) :=
  [match_ident_re_w w, match_int_re_w d]

/-- The two compiled patterns at the modelled classes. -/
def token_regexps : List (List Char → Option Nat) := [match_ident_re, match_int_re]

/-- The indexed loop body of `TokenType::literal_token_matcher`: try each
pattern at `start`; on a match, first look the matched substring up in
`KEYWORDS` (yielding a `Keyword` token), otherwise classify by the pattern
index through `Literal::from_int`. -/
def literal_loop (input : List Char) (start : Nat) :
    List (Nat × (List Char → Option Nat)) → Option TokenPos
  | [] => none
  | (i, r) :: rest =>
    match r (input.drop start) with
    | some n =>
      match kw_lookup KEYWORDS (slice_chars input start (start + n)) with
      | some j => (Keyword.from_int j).map (fun k => ⟨TokenType.Keyword k, start + n⟩)
      | none => (Literal.from_int i).map (fun l => ⟨TokenType.Literal l, start + n⟩)
    | none => literal_loop input start rest

/-- `TokenType::literal_token_matcher` (the closure it returns, with the
precompiled patterns inlined), parametric in the two character classes. -/
def literal_token_matcher_w (w d : Char → Bool) (input : List Char)
    (start : Nat) : Option TokenPos :=
  literal_loop input start (token_regexps_w w d).enum

/-- `TokenType::literal_token_matcher` at the modelled classes. -/
def literal_token_matcher (input : List Char) (start : Nat) : Option TokenPos :=
  literal_loop input start token_regexps.enum

/-- The `SPEC_PATTERNS` loop inside `TokenType::match_spec`: the first
two-character pattern that is a prefix of `input[start..]` wins, classified
through `Spec::from_int (SPEC.len() + j)`. -/
def spec_pattern_loop (input : List Char) (start : Nat) :
    List (Nat × List Char) → Option TokenPos
  | [] => none
  | (j, p) :: rest =>
    if starts_with (input.drop start) p then
      (Spec.from_int (SPEC.length + j)).map
        (fun s => ⟨TokenType.Spec s, start + p.length⟩)
    else spec_pattern_loop input start rest

/-- `TokenType::match_spec`.  The single-character fallback advances by
`ch.len_utf8()` bytes in the source, i.e. by the one character `ch` — `start + 1`
in the character indexing. -/
def match_spec (input : List Char) (start : Nat) (ch : Char) : Option TokenPos :=
  match find_char_idx SPEC ch with
  | some i =>
    match spec_pattern_loop input start SPEC_PATTERNS.enum with
    | some tp => some tp
    | none => (Spec.from_int i).map (fun s => ⟨TokenType.Spec s, start + 1⟩)
  | none => none

/-- The mutable cursor of `LexerIterator`: byte offset (as a character index)
and current zero-based line. -/
structure LexerState where
  pos : Nat
  current_line : Nat
  deriving DecidableEq

/-- Recursion underlying `skip_whitespaces`, over the remaining input: number
of whitespace characters skipped, number of newlines among them, and the first
non-whitespace character if one exists. -/
def skip_ws_aux : List Char → Nat × Nat × Option Char
  | [] => (0, 0, none)
  | c :: cs =>
    if is_rust_whitespace c then
      ((skip_ws_aux cs).1 + 1,
       (if c == '\n' then (skip_ws_aux cs).2.1 + 1 else (skip_ws_aux cs).2.1),
       (skip_ws_aux cs).2.2)
    else (0, 0, some c)

/-- `LexerIterator::skip_whitespaces`: advance the cursor past whitespace,
incrementing the line counter at each newline, and report the first
non-whitespace character (`None` at end of input). -/
def skip_whitespaces (input : List Char) (st : LexerState) : LexerState × Option Char :=
  (⟨st.pos + (skip_ws_aux (input.drop st.pos)).1,
    st.current_line + (skip_ws_aux (input.drop st.pos)).2.1⟩,
   (skip_ws_aux (input.drop st.pos)).2.2)

/-- `LexerIterator::produce`: advance the cursor to the match end, slicing the
literal text out of the input for `Literal` kinds only. -/
def produce (input : List Char) (st : LexerState) (tp : TokenPos) : Token × LexerState :=
  match tp.token_type with
  | TokenType.Literal _ =>
    (⟨tp.token_type, some (slice_chars input st.pos tp.endp), st.current_line⟩,
     ⟨tp.endp, st.current_line⟩)
  | _ => (⟨tp.token_type, none, st.current_line⟩, ⟨tp.endp, st.current_line⟩)

/-- `LexerIterator::illegal_or_none`: with input remaining, emit one `Illegal`
token and jump the cursor to the end of the input; otherwise nothing. -/
def illegal_or_none (input : List Char) (st : LexerState) : Option Token × LexerState :=
  if st.pos < input.length then
    (some ⟨TokenType.Illegal, none, st.current_line⟩, ⟨input.length, st.current_line⟩)
  else (none, st)

/-- `LexerIterator::next_token`: skip whitespace, try `match_spec` on the
stopping character, fall back to the literal matcher, produce the token, and
otherwise fall through to `illegal_or_none` — the exact
`and_then / or_else / map / or_else` chain of the source; parametric in the
two character classes of the literal matcher. -/
def next_token_w (w d : Char → Bool) (input : List Char) (st : LexerState) :
    Option Token × LexerState :=
  match (match (skip_whitespaces input st).2 with
         | some ch => match_spec input (skip_whitespaces input st).1.pos ch
         | none => none) with
  | some tp =>
    (some (produce input (skip_whitespaces input st).1 tp).1,
     (produce input (skip_whitespaces input st).1 tp).2)
  | none =>
    match literal_token_matcher_w w d input (skip_whitespaces input st).1.pos with
    | some tp =>
      (some (produce input (skip_whitespaces input st).1 tp).1,
       (produce input (skip_whitespaces input st).1 tp).2)
    | none => illegal_or_none input (skip_whitespaces input st).1

/-- `LexerIterator::next_token` at the modelled classes. -/
def next_token : List Char → LexerState → Option Token × LexerState :=
  next_token_w is_word_char is_nd_digit

/-- Fuelled unfolding of the `Iterator` over `LexerIterator`; the fuel
`input.length + 1` in `tokenize` is enough because every produced token
strictly advances the cursor. -/
def tokenize_aux (input : List Char) : Nat → LexerState → List Token
  | 0, _ => []
  | fuel + 1, st =>
    match next_token input st with
    | (some t, st') => t :: tokenize_aux input fuel st'
    | (none, _) => []

/-- `Lexer::tokenize` followed by collecting the iterator: the full token
sequence of one scan. -/
def tokenize (input : List Char) : List Token :=
  tokenize_aux input (input.length + 1) ⟨0, 0⟩

/-- Instrumented scan: each produced token together with its start offset (the
cursor after whitespace skipping) and end offset (the cursor after the token). -/
def tokenize_run_aux (input : List Char) : Nat → LexerState → List (Token × Nat × Nat)
  | 0, _ => []
  | fuel + 1, st =>
    match next_token input st with
    | (some t, st') =>
      (t, (skip_whitespaces input st).1.pos, st'.pos) :: tokenize_run_aux input fuel st'
    | (none, _) => []

/-- Instrumented scan from the initial state. -/
def tokenize_run (input : List Char) : List (Token × Nat × Nat) :=
  tokenize_run_aux input (input.length + 1) ⟨0, 0⟩

/-- Instrumented scan parametric in the two character classes of the literal
matcher; at `is_word_char`/`is_nd_digit` it coincides with `tokenize_run`. -/
def tokenize_run_aux_w (w d : Char → Bool) (input : List Char) :
    Nat → LexerState → List (Token × Nat × Nat)
  | 0, _ => []
  | fuel + 1, st =>
    match next_token_w w d input st with
    | (some t, st') =>
      (t, (skip_whitespaces input st).1.pos, st'.pos) ::
        tokenize_run_aux_w w d input fuel st'
    | (none, _) => []

/-- Instrumented parametric scan from the initial state. -/
def tokenize_run_w (w d : Char → Bool) (input : List Char) :
    List (Token × Nat × Nat) :=
  tokenize_run_aux_w w d input (input.length + 1) ⟨0, 0⟩

/-- Cursor state after `k` calls to `next_token`. -/
def state_after (input : List Char) : Nat → LexerState → LexerState
  | 0, st => st
  | k + 1, st => state_after input k (next_token input st).2

/-- The single-character symbol table `SPEC` read as a finite table from
characters to `Spec` kinds, composing `str::find` with `Spec::from_int` as
`match_spec` does. -/
def spec_of (ch : Char) : Option Spec :=
  (find_char_idx SPEC ch).bind Spec.from_int

/-- Identifier shape: one ASCII letter, then word characters only. -/
def is_ident_shaped : List Char → Bool
  | [] => false
  | c :: rest => is_ascii_letter c && rest.all is_word_char

/-- Number of newline characters in a character sequence. -/
def nl_count (cs : List Char) : Nat := (cs.filter (fun c => c == '\n')).length

/-- Line-counter invariant of a cursor state: the stored line equals the number
of newlines strictly before the cursor, and the cursor is in bounds. -/
def LineInv (input : List Char) (st : LexerState) : Prop :=
  st.current_line = nl_count (input.take st.pos) ∧ st.pos ≤ input.length

theorem take_add_append (l : List α) (m n : Nat) :
    l.take (m + n) = l.take m ++ (l.drop m).take n := by
  induction m generalizing l with
  | zero => simp
  | succ m ih =>
    cases l with
    | nil => simp
    | cons c t =>
      have : m + 1 + n = (m + n) + 1 := by omega
      simp [this, List.take_succ_cons, ih]

theorem getElem?_drop_add (l : List α) (i j : Nat) : (l.drop i)[j]? = l[i + j]? := by
  induction i generalizing l with
  | zero => simp
  | succ i ih =>
    cases l with
    | nil => simp
    | cons c t =>
      have : i + 1 + j = (i + j) + 1 := by omega
      simp [this, ih]

theorem getElem?_some_lt {l : List α} {i : Nat} {a : α} (h : l[i]? = some a) :
    i < l.length := by
  by_contra hlt
  rw [List.getElem?_eq_none (by omega)] at h
  exact Option.noConfusion h

theorem takeWhile_length_le (p : α → Bool) (l : List α) :
    (l.takeWhile p).length ≤ l.length :=
  (List.takeWhile_sublist p).length_le

theorem take_takeWhile_length (p : α → Bool) (l : List α) :
    l.take (l.takeWhile p).length = l.takeWhile p := by
  induction l with
  | nil => rfl
  | cons c t ih =>
    cases hp : p c with
    | true => simp [List.takeWhile_cons_of_pos hp, List.take_succ_cons, ih]
    | false =>
      have hneg : ¬ p c = true := by simp [hp]
      rw [List.takeWhile_cons_of_neg hneg]
      simp

theorem takeWhile_getElem?_max (p : α → Bool) (l : List α) :
    ∀ c, l[(l.takeWhile p).length]? = some c → p c = false := by
  induction l with
  | nil => intro c h; simp at h
  | cons a t ih =>
    intro c h
    cases hp : p a with
    | true =>
      rw [List.takeWhile_cons_of_pos hp] at h
      simp only [List.length_cons, List.getElem?_cons_succ] at h
      exact ih c h
    | false =>
      rw [List.takeWhile_cons_of_neg (by simp [hp])] at h
      simp only [List.length_nil, List.getElem?_cons_zero] at h
      cases h
      exact hp

theorem takeWhile_mem (p : α → Bool) (l : List α) :
    ∀ x ∈ l.takeWhile p, p x = true := by
  intro x hx
  exact List.mem_takeWhile_imp hx

theorem starts_with_take (s p : List Char) (h : starts_with s p = true) :
    s.take p.length = p ∧ p.length ≤ s.length := by
  induction p generalizing s with
  | nil => simp
  | cons pc pt ih =>
    cases s with
    | nil => simp [starts_with] at h
    | cons sc st =>
      simp only [starts_with, Bool.and_eq_true, beq_iff_eq] at h
      obtain ⟨rfl, h2⟩ := h
      obtain ⟨h3, h4⟩ := ih st h2
      constructor
      · simp [List.take_succ_cons, h3]
      · simpa using h4

theorem find_char_idx_mem (l : List Char) (ch : Char) (i : Nat)
    (h : find_char_idx l ch = some i) : ch ∈ l := by
  induction l generalizing i with
  | nil => simp [find_char_idx] at h
  | cons c t ih =>
    cases hc : c == ch with
    | true =>
      have : c = ch := by simpa using hc
      subst this
      exact List.mem_cons_self _ _
    | false =>
      simp only [find_char_idx, hc, Bool.false_eq_true, if_false] at h
      cases hfi : find_char_idx t ch with
      | none => rw [hfi] at h; simp at h
      | some j => exact List.mem_cons_of_mem _ (ih j hfi)

theorem kw_lookup_isSome_iff (kws : List (List Char)) (sp : List Char) :
    (kw_lookup kws sp).isSome = true ↔ sp ∈ kws := by
  induction kws with
  | nil => simp [kw_lookup]
  | cons kw rest ih =>
    cases hk : kw == sp with
    | true =>
      have : kw = sp := by simpa using hk
      subst this
      simp [kw_lookup]
    | false =>
      have hne : sp ≠ kw := fun he => by simp [he] at hk
      rw [List.mem_cons]
      simp only [kw_lookup, hk, Bool.false_eq_true, if_false]
      cases hkl : kw_lookup rest sp with
      | none =>
        have hnm : ¬ sp ∈ rest := fun hm => by
          rw [hkl] at ih
          simpa using ih.mpr hm
        simp [hnm, hne]
      | some j =>
        have hm : sp ∈ rest := by
          rw [hkl] at ih
          simpa using ih
        simp [hm]

theorem kw_lookup_some_get (kws : List (List Char)) (sp : List Char) (j : Nat)
    (h : kw_lookup kws sp = some j) : kws[j]? = some sp := by
  induction kws generalizing j with
  | nil => simp [kw_lookup] at h
  | cons kw rest ih =>
    cases hk : kw == sp with
    | true =>
      have : kw = sp := by simpa using hk
      subst this
      simp only [kw_lookup, beq_self_eq_true, if_true] at h
      cases h
      simp
    | false =>
      simp only [kw_lookup, hk, Bool.false_eq_true, if_false] at h
      cases hfi : kw_lookup rest sp with
      | none => rw [hfi] at h; simp at h
      | some j' =>
        rw [hfi] at h
        simp only [Option.map_some'] at h
        cases h
        simpa using ih j' hfi

theorem nl_count_append (xs ys : List Char) :
    nl_count (xs ++ ys) = nl_count xs + nl_count ys := by
  simp [nl_count, List.filter_append]

theorem nl_count_no_nl (cs : List Char) (h : ∀ c ∈ cs, (c == '\n') = false) :
    nl_count cs = 0 := by
  induction cs with
  | nil => rfl
  | cons c t ih =>
    have hc := h c (List.mem_cons_self _ _)
    simp only [nl_count, List.filter_cons, hc, Bool.false_eq_true, if_false]
    exact ih (fun x hx => h x (List.mem_cons_of_mem _ hx))

theorem nl_count_take_split (input : List Char) (m n : Nat) :
    nl_count (input.take (m + n)) =
      nl_count (input.take m) + nl_count ((input.drop m).take n) := by
  rw [take_add_append]
  exact nl_count_append _ _

theorem skip_ws_aux_le (cs : List Char) : (skip_ws_aux cs).1 ≤ cs.length := by
  induction cs with
  | nil => simp [skip_ws_aux]
  | cons c t ih =>
    cases hw : is_rust_whitespace c with
    | true =>
      simp only [skip_ws_aux, hw, if_true, List.length_cons]
      omega
    | false => simp [skip_ws_aux, hw]

theorem skip_ws_aux_none (cs : List Char) (h : (skip_ws_aux cs).2.2 = none) :
    (skip_ws_aux cs).1 = cs.length := by
  induction cs with
  | nil => simp [skip_ws_aux]
  | cons c t ih =>
    cases hw : is_rust_whitespace c with
    | true =>
      simp only [skip_ws_aux, hw, if_true] at h ⊢
      simp only [List.length_cons]
      rw [ih h]
    | false => simp [skip_ws_aux, hw] at h

theorem skip_ws_aux_some (cs : List Char) (ch : Char)
    (h : (skip_ws_aux cs).2.2 = some ch) :
    cs[(skip_ws_aux cs).1]? = some ch ∧ is_rust_whitespace ch = false := by
  induction cs with
  | nil => simp [skip_ws_aux] at h
  | cons c t ih =>
    cases hw : is_rust_whitespace c with
    | true =>
      simp only [skip_ws_aux, hw, if_true] at h ⊢
      obtain ⟨h1, h2⟩ := ih h
      refine ⟨?_, h2⟩
      simpa using h1
    | false =>
      simp only [skip_ws_aux, hw, Bool.false_eq_true, if_false] at h ⊢
      simp only [Option.some.injEq] at h
      subst h
      exact ⟨by simp, hw⟩

theorem skip_ws_aux_nl (cs : List Char) :
    (skip_ws_aux cs).2.1 = nl_count (cs.take (skip_ws_aux cs).1) := by
  induction cs with
  | nil => simp [skip_ws_aux, nl_count]
  | cons c t ih =>
    cases hw : is_rust_whitespace c with
    | true =>
      cases hn : c == '\n' with
      | true =>
        simp only [skip_ws_aux, hw, if_true, hn, List.take_succ_cons, nl_count,
          List.filter_cons]
        simp only [nl_count] at ih
        simp [ih]
      | false =>
        simp only [skip_ws_aux, hw, if_true, hn, Bool.false_eq_true, if_false,
          List.take_succ_cons, nl_count, List.filter_cons]
        simp only [nl_count] at ih
        simp [ih]
    | false => simp [skip_ws_aux, hw, nl_count]

theorem skip_pos_le (input : List Char) (st : LexerState) :
    st.pos ≤ (skip_whitespaces input st).1.pos := by
  simp [skip_whitespaces]

theorem skip_pos_bound (input : List Char) (st : LexerState)
    (h : st.pos ≤ input.length) :
    (skip_whitespaces input st).1.pos ≤ input.length := by
  have hle := skip_ws_aux_le (input.drop st.pos)
  simp only [List.length_drop] at hle
  simp only [skip_whitespaces]
  omega

theorem skip_line_le (input : List Char) (st : LexerState) :
    st.current_line ≤ (skip_whitespaces input st).1.current_line := by
  simp [skip_whitespaces]

theorem skip_some_char (input : List Char) (st : LexerState) (ch : Char)
    (h : (skip_whitespaces input st).2 = some ch) :
    input[(skip_whitespaces input st).1.pos]? = some ch ∧
      is_rust_whitespace ch = false := by
  have h' : (skip_ws_aux (input.drop st.pos)).2.2 = some ch := by
    simpa [skip_whitespaces] using h
  obtain ⟨h1, h2⟩ := skip_ws_aux_some _ _ h'
  refine ⟨?_, h2⟩
  rw [getElem?_drop_add] at h1
  simpa [skip_whitespaces] using h1

theorem skip_some_lt (input : List Char) (st : LexerState) (ch : Char)
    (h : (skip_whitespaces input st).2 = some ch) :
    (skip_whitespaces input st).1.pos < input.length :=
  getElem?_some_lt (skip_some_char input st ch h).1

theorem skip_none_pos (input : List Char) (st : LexerState)
    (h : (skip_whitespaces input st).2 = none) (hle : st.pos ≤ input.length) :
    (skip_whitespaces input st).1.pos = input.length := by
  have h' : (skip_ws_aux (input.drop st.pos)).2.2 = none := by
    simpa [skip_whitespaces] using h
  have hn := skip_ws_aux_none _ h'
  simp only [List.length_drop] at hn
  simp only [skip_whitespaces]
  omega

theorem skip_line_eq (input : List Char) (st : LexerState)
    (hinv : st.current_line = nl_count (input.take st.pos)) :
    (skip_whitespaces input st).1.current_line =
      nl_count (input.take (skip_whitespaces input st).1.pos) := by
  simp only [skip_whitespaces]
  rw [nl_count_take_split, hinv, skip_ws_aux_nl]

theorem char_pred_ne_nl (p : Char → Bool) (hp : p '\n' = false) (c : Char)
    (h : p c = true) : (c == '\n') = false := by
  cases hc : c == '\n' with
  | false => rfl
  | true =>
    have : c = '\n' := by simpa using hc
    subst this
    rw [h] at hp
    simp at hp

theorem match_ident_re_w_inv (w : Char → Bool) (cs : List Char) (n : Nat)
    (h : match_ident_re_w w cs = some n) :
    1 ≤ n ∧ n ≤ cs.length ∧
    (∃ c rest, cs = c :: rest ∧ is_ascii_letter c = true ∧
      cs.take n = c :: rest.takeWhile w) ∧
    (∀ c, cs[n]? = some c → w c = false) := by
  cases cs with
  | nil => simp [match_ident_re_w] at h
  | cons c rest =>
    cases hl : is_ascii_letter c with
    | false => simp [match_ident_re_w, hl] at h
    | true =>
      simp only [match_ident_re_w, hl, if_true, Option.some.injEq] at h
      subst h
      have hlen := takeWhile_length_le w rest
      refine ⟨by omega, by simp only [List.length_cons]; omega,
        ⟨c, rest, rfl, hl, ?_⟩, ?_⟩
      · rw [Nat.add_comm 1 _]
        simp only [List.take_succ_cons]
        rw [take_takeWhile_length]
      · intro x hx
        rw [Nat.add_comm 1 _] at hx
        simp only [List.getElem?_cons_succ] at hx
        exact takeWhile_getElem?_max w rest x hx

theorem match_ident_re_inv (cs : List Char) (n : Nat)
    (h : match_ident_re cs = some n) :
    1 ≤ n ∧ n ≤ cs.length ∧
    (∃ c rest, cs = c :: rest ∧ is_ascii_letter c = true ∧
      cs.take n = c :: rest.takeWhile is_word_char) ∧
    (∀ c, cs[n]? = some c → is_word_char c = false) :=
  match_ident_re_w_inv is_word_char cs n h

theorem match_int_re_w_inv (d : Char → Bool) (cs : List Char) (n : Nat)
    (h : match_int_re_w d cs = some n) :
    1 ≤ n ∧ n ≤ cs.length ∧ cs.take n = cs.takeWhile d ∧
    (∀ c, cs[n]? = some c → d c = false) := by
  cases htw : (cs.takeWhile d).length == 0 with
  | true => simp [match_int_re_w, htw] at h
  | false =>
    simp only [match_int_re_w, htw, Bool.false_eq_true, if_false,
      Option.some.injEq] at h
    subst h
    have hne : (cs.takeWhile d).length ≠ 0 := by simpa using htw
    have hlen := takeWhile_length_le d cs
    exact ⟨by omega, hlen, take_takeWhile_length _ _,
      fun c hc => takeWhile_getElem?_max d cs c hc⟩

theorem match_int_re_inv (cs : List Char) (n : Nat)
    (h : match_int_re cs = some n) :
    1 ≤ n ∧ n ≤ cs.length ∧ cs.take n = cs.takeWhile is_nd_digit ∧
    (∀ c, cs[n]? = some c → is_nd_digit c = false) :=
  match_int_re_w_inv is_nd_digit cs n h

theorem spec_loop_eq (input : List Char) (start : Nat) :
    spec_pattern_loop input start SPEC_PATTERNS.enum =
      (if starts_with (input.drop start) ['=', '='] then
        some ⟨TokenType.Spec Spec.Equal, start + 2⟩
       else if starts_with (input.drop start) ['!', '='] then
        some ⟨TokenType.Spec Spec.NotEqual, start + 2⟩
       else none) := by
  rw [show SPEC_PATTERNS.enum = [(0, ['=', '=']), (1, ['!', '='])] from rfl]
  cases h1 : starts_with (input.drop start) ['=', '='] with
  | true =>
    simp only [spec_pattern_loop, h1, if_true]
    rfl
  | false =>
    cases h2 : starts_with (input.drop start) ['!', '='] with
    | true =>
      simp only [spec_pattern_loop, h1, h2, Bool.false_eq_true, if_false, if_true]
      rfl
    | false =>
      simp only [spec_pattern_loop, h1, h2, Bool.false_eq_true, if_false]

theorem match_spec_eq (input : List Char) (start : Nat) (ch : Char) :
    match_spec input start ch =
      match find_char_idx SPEC ch with
      | some i =>
        if starts_with (input.drop start) ['=', '='] then
          some ⟨TokenType.Spec Spec.Equal, start + 2⟩
        else if starts_with (input.drop start) ['!', '='] then
          some ⟨TokenType.Spec Spec.NotEqual, start + 2⟩
        else (Spec.from_int i).map (fun s => ⟨TokenType.Spec s, start + 1⟩)
      | none => none := by
  unfold match_spec
  cases hf : find_char_idx SPEC ch with
  | none => simp only []
  | some i =>
    simp only []
    rw [spec_loop_eq]
    cases h1 : starts_with (input.drop start) ['=', '='] with
    | true => simp [h1]
    | false =>
      cases h2 : starts_with (input.drop start) ['!', '='] with
      | true => simp [h1, h2]
      | false => simp [h1, h2]

theorem match_spec_inv (input : List Char) (start : Nat) (ch : Char)
    (tp : TokenPos) (h : match_spec input start ch = some tp) :
    (∃ s, tp.token_type = TokenType.Spec s) ∧ ch ∈ SPEC ∧
    ((tp.endp = start + 2 ∧ (input.drop start).take 2 = ['=', '=']) ∨
     (tp.endp = start + 2 ∧ (input.drop start).take 2 = ['!', '=']) ∨
     tp.endp = start + 1) := by
  rw [match_spec_eq] at h
  cases hf : find_char_idx SPEC ch with
  | none =>
    rw [hf] at h
    simp only [] at h
    exact Option.noConfusion h
  | some i =>
    have hmem := find_char_idx_mem _ _ _ hf
    rw [hf] at h
    simp only [] at h
    cases h1 : starts_with (input.drop start) ['=', '='] with
    | true =>
      simp only [h1, if_true] at h
      simp only [Option.some.injEq] at h
      subst h
      refine ⟨⟨Spec.Equal, rfl⟩, hmem, Or.inl ⟨rfl, ?_⟩⟩
      simpa using (starts_with_take _ _ h1).1
    | false =>
      simp only [h1, Bool.false_eq_true, if_false] at h
      cases h2 : starts_with (input.drop start) ['!', '='] with
      | true =>
        simp only [h2, if_true] at h
        simp only [Option.some.injEq] at h
        subst h
        refine ⟨⟨Spec.NotEqual, rfl⟩, hmem, Or.inr (Or.inl ⟨rfl, ?_⟩)⟩
        simpa using (starts_with_take _ _ h2).1
      | false =>
        simp only [h2, Bool.false_eq_true, if_false] at h
        cases hfi : Spec.from_int i with
        | none => rw [hfi] at h; simp at h
        | some s =>
          rw [hfi] at h
          simp only [Option.map_some', Option.some.injEq] at h
          subst h
          exact ⟨⟨s, rfl⟩, hmem, Or.inr (Or.inr rfl)⟩

theorem ltm_w_eq (w d : Char → Bool) (input : List Char) (start : Nat) :
    literal_token_matcher_w w d input start =
      match match_ident_re_w w (input.drop start) with
      | some n =>
        (match kw_lookup KEYWORDS (slice_chars input start (start + n)) with
         | some j =>
           (Keyword.from_int j).map (fun k => ⟨TokenType.Keyword k, start + n⟩)
         | none => some ⟨TokenType.Literal Literal.Ident, start + n⟩)
      | none =>
        match match_int_re_w d (input.drop start) with
        | some n =>
          (match kw_lookup KEYWORDS (slice_chars input start (start + n)) with
           | some j =>
             (Keyword.from_int j).map (fun k => ⟨TokenType.Keyword k, start + n⟩)
           | none => some ⟨TokenType.Literal Literal.Int, start + n⟩)
        | none => none := by
  unfold literal_token_matcher_w
  rw [show (token_regexps_w w d).enum = [(0, match_ident_re_w w), (1, match_int_re_w d)] from rfl]
  cases hmi : match_ident_re_w w (input.drop start) with
  | some n =>
    simp only [literal_loop, hmi]
    cases hkw : kw_lookup KEYWORDS (slice_chars input start (start + n)) with
    | some j => simp only []
    | none => rfl
  | none =>
    simp only [literal_loop, hmi]
    cases hmi2 : match_int_re_w d (input.drop start) with
    | some n =>
      simp only []
      cases hkw : kw_lookup KEYWORDS (slice_chars input start (start + n)) with
      | some j => simp only []
      | none => rfl
    | none => simp only []

theorem ltm_eq (input : List Char) (start : Nat) :
    literal_token_matcher input start =
      match match_ident_re (input.drop start) with
      | some n =>
        (match kw_lookup KEYWORDS (slice_chars input start (start + n)) with
         | some j =>
           (Keyword.from_int j).map (fun k => ⟨TokenType.Keyword k, start + n⟩)
         | none => some ⟨TokenType.Literal Literal.Ident, start + n⟩)
      | none =>
        match match_int_re (input.drop start) with
        | some n =>
          (match kw_lookup KEYWORDS (slice_chars input start (start + n)) with
           | some j =>
             (Keyword.from_int j).map (fun k => ⟨TokenType.Keyword k, start + n⟩)
           | none => some ⟨TokenType.Literal Literal.Int, start + n⟩)
        | none => none :=
  ltm_w_eq is_word_char is_nd_digit input start

theorem ltm_w_inv (w d : Char → Bool) (input : List Char) (start : Nat) (tp : TokenPos)
    (h : literal_token_matcher_w w d input start = some tp) :
    ∃ n, tp.endp = start + n ∧ 1 ≤ n ∧ n ≤ input.length - start ∧
      (∀ j, kw_lookup KEYWORDS (slice_chars input start (start + n)) = some j →
        ∃ k, Keyword.from_int j = some k ∧ tp.token_type = TokenType.Keyword k) ∧
      ((match_ident_re_w w (input.drop start) = some n ∧
         (kw_lookup KEYWORDS (slice_chars input start (start + n)) = none →
           tp.token_type = TokenType.Literal Literal.Ident)) ∨
       (match_int_re_w d (input.drop start) = some n ∧
         (kw_lookup KEYWORDS (slice_chars input start (start + n)) = none →
           tp.token_type = TokenType.Literal Literal.Int))) := by
  rw [ltm_w_eq] at h
  cases hmi : match_ident_re_w w (input.drop start) with
  | some n =>
    rw [hmi] at h
    simp only [] at h
    have hb := match_ident_re_w_inv w _ _ hmi
    have hbl : n ≤ input.length - start := by
      have h2 := hb.2.1
      simpa [List.length_drop] using h2
    cases hkw : kw_lookup KEYWORDS (slice_chars input start (start + n)) with
    | some j =>
      rw [hkw] at h
      simp only [] at h
      cases hfi : Keyword.from_int j with
      | none => rw [hfi] at h; simp at h
      | some k =>
        rw [hfi] at h
        simp only [Option.map_some', Option.some.injEq] at h
        subst h
        refine ⟨n, rfl, hb.1, hbl, ?_, Or.inl ⟨rfl, ?_⟩⟩
        · intro j2 hj2
          rw [hkw] at hj2
          simp only [Option.some.injEq] at hj2
          subst hj2
          exact ⟨k, hfi, rfl⟩
        · intro hn
          rw [hkw] at hn
          exact Option.noConfusion hn
    | none =>
      rw [hkw] at h
      simp only [] at h
      simp only [Option.some.injEq] at h
      subst h
      refine ⟨n, rfl, hb.1, hbl, ?_, Or.inl ⟨rfl, fun _ => rfl⟩⟩
      intro j2 hj2
      rw [hkw] at hj2
      exact Option.noConfusion hj2
  | none =>
    rw [hmi] at h
    simp only [] at h
    cases hmi2 : match_int_re_w d (input.drop start) with
    | some n =>
      rw [hmi2] at h
      simp only [] at h
      have hb := match_int_re_w_inv d _ _ hmi2
      have hbl : n ≤ input.length - start := by
        have h2 := hb.2.1
        simpa [List.length_drop] using h2
      cases hkw : kw_lookup KEYWORDS (slice_chars input start (start + n)) with
      | some j =>
        rw [hkw] at h
        simp only [] at h
        cases hfi : Keyword.from_int j with
        | none => rw [hfi] at h; simp at h
        | some k =>
          rw [hfi] at h
          simp only [Option.map_some', Option.some.injEq] at h
          subst h
          refine ⟨n, rfl, hb.1, hbl, ?_, Or.inr ⟨rfl, ?_⟩⟩
          · intro j2 hj2
            rw [hkw] at hj2
            simp only [Option.some.injEq] at hj2
            subst hj2
            exact ⟨k, hfi, rfl⟩
          · intro hn
            rw [hkw] at hn
            exact Option.noConfusion hn
      | none =>
        rw [hkw] at h
        simp only [] at h
        simp only [Option.some.injEq] at h
        subst h
        refine ⟨n, rfl, hb.1, hbl, ?_, Or.inr ⟨rfl, fun _ => rfl⟩⟩
        intro j2 hj2
        rw [hkw] at hj2
        exact Option.noConfusion hj2
    | none =>
      rw [hmi2] at h
      simp only [] at h
      exact Option.noConfusion h

theorem ltm_inv (input : List Char) (start : Nat) (tp : TokenPos)
    (h : literal_token_matcher input start = some tp) :
    ∃ n, tp.endp = start + n ∧ 1 ≤ n ∧ n ≤ input.length - start ∧
      (∀ j, kw_lookup KEYWORDS (slice_chars input start (start + n)) = some j →
        ∃ k, Keyword.from_int j = some k ∧ tp.token_type = TokenType.Keyword k) ∧
      ((match_ident_re (input.drop start) = some n ∧
         (kw_lookup KEYWORDS (slice_chars input start (start + n)) = none →
           tp.token_type = TokenType.Literal Literal.Ident)) ∨
       (match_int_re (input.drop start) = some n ∧
         (kw_lookup KEYWORDS (slice_chars input start (start + n)) = none →
           tp.token_type = TokenType.Literal Literal.Int))) :=
  ltm_w_inv is_word_char is_nd_digit input start tp h

theorem produce_token_type (input : List Char) (st : LexerState) (tp : TokenPos) :
    ((produce input st tp).1).token_type = tp.token_type := by
  unfold produce
  cases htt : tp.token_type <;> simp

theorem produce_line (input : List Char) (st : LexerState) (tp : TokenPos) :
    ((produce input st tp).1).line = st.current_line := by
  unfold produce
  cases htt : tp.token_type <;> simp

theorem produce_snd (input : List Char) (st : LexerState) (tp : TokenPos) :
    (produce input st tp).2 = ⟨tp.endp, st.current_line⟩ := by
  unfold produce
  cases htt : tp.token_type <;> simp

theorem produce_literal_lit (input : List Char) (st : LexerState) (tp : TokenPos)
    (l : Literal) (h : tp.token_type = TokenType.Literal l) :
    ((produce input st tp).1).literal = some (slice_chars input st.pos tp.endp) := by
  unfold produce
  rw [h]

theorem produce_literal_none (input : List Char) (st : LexerState) (tp : TokenPos)
    (h : ∀ l, tp.token_type ≠ TokenType.Literal l) :
    ((produce input st tp).1).literal = none := by
  unfold produce
  cases htt : tp.token_type with
  | Literal l => exact absurd htt (h l)
  | Spec s => simp
  | Keyword k => simp
  | Illegal => simp

theorem next_token_w_some_cases (w d : Char → Bool) (input : List Char) (st : LexerState) (t : Token)
    (st' : LexerState) (h : next_token_w w d input st = (some t, st')) :
    (∃ ch tp, (skip_whitespaces input st).2 = some ch ∧
      match_spec input (skip_whitespaces input st).1.pos ch = some tp ∧
      t = (produce input (skip_whitespaces input st).1 tp).1 ∧
      st' = (produce input (skip_whitespaces input st).1 tp).2) ∨
    (∃ tp, literal_token_matcher_w w d input (skip_whitespaces input st).1.pos = some tp ∧
      t = (produce input (skip_whitespaces input st).1 tp).1 ∧
      st' = (produce input (skip_whitespaces input st).1 tp).2) ∨
    ((skip_whitespaces input st).1.pos < input.length ∧
      t = ⟨TokenType.Illegal, none, (skip_whitespaces input st).1.current_line⟩ ∧
      st' = ⟨input.length, (skip_whitespaces input st).1.current_line⟩) := by
  unfold next_token_w at h
  cases hsk : (skip_whitespaces input st).2 with
  | some ch =>
    rw [hsk] at h
    simp only [] at h
    cases hms : match_spec input (skip_whitespaces input st).1.pos ch with
    | some tp =>
      rw [hms] at h
      simp only [Prod.mk.injEq, Option.some.injEq] at h
      exact Or.inl ⟨ch, tp, rfl, hms, h.1.symm, h.2.symm⟩
    | none =>
      rw [hms] at h
      simp only [] at h
      cases hltm : literal_token_matcher_w w d input (skip_whitespaces input st).1.pos with
      | some tp =>
        rw [hltm] at h
        simp only [Prod.mk.injEq, Option.some.injEq] at h
        exact Or.inr (Or.inl ⟨tp, rfl, h.1.symm, h.2.symm⟩)
      | none =>
        rw [hltm] at h
        simp only [] at h
        unfold illegal_or_none at h
        by_cases hp : (skip_whitespaces input st).1.pos < input.length
        · rw [if_pos hp] at h
          simp only [Prod.mk.injEq, Option.some.injEq] at h
          exact Or.inr (Or.inr ⟨hp, h.1.symm, h.2.symm⟩)
        · rw [if_neg hp] at h
          simp only [Prod.mk.injEq] at h
          exact Option.noConfusion h.1
  | none =>
    rw [hsk] at h
    simp only [] at h
    cases hltm : literal_token_matcher_w w d input (skip_whitespaces input st).1.pos with
    | some tp =>
      rw [hltm] at h
      simp only [Prod.mk.injEq, Option.some.injEq] at h
      exact Or.inr (Or.inl ⟨tp, rfl, h.1.symm, h.2.symm⟩)
    | none =>
      rw [hltm] at h
      simp only [] at h
      unfold illegal_or_none at h
      by_cases hp : (skip_whitespaces input st).1.pos < input.length
      · rw [if_pos hp] at h
        simp only [Prod.mk.injEq, Option.some.injEq] at h
        exact Or.inr (Or.inr ⟨hp, h.1.symm, h.2.symm⟩)
      · rw [if_neg hp] at h
        simp only [Prod.mk.injEq] at h
        exact Option.noConfusion h.1

theorem next_token_some_cases (input : List Char) (st : LexerState) (t : Token)
    (st' : LexerState) (h : next_token input st = (some t, st')) :
    (∃ ch tp, (skip_whitespaces input st).2 = some ch ∧
      match_spec input (skip_whitespaces input st).1.pos ch = some tp ∧
      t = (produce input (skip_whitespaces input st).1 tp).1 ∧
      st' = (produce input (skip_whitespaces input st).1 tp).2) ∨
    (∃ tp, literal_token_matcher input (skip_whitespaces input st).1.pos = some tp ∧
      t = (produce input (skip_whitespaces input st).1 tp).1 ∧
      st' = (produce input (skip_whitespaces input st).1 tp).2) ∨
    ((skip_whitespaces input st).1.pos < input.length ∧
      t = ⟨TokenType.Illegal, none, (skip_whitespaces input st).1.current_line⟩ ∧
      st' = ⟨input.length, (skip_whitespaces input st).1.current_line⟩) :=
  next_token_w_some_cases is_word_char is_nd_digit input st t st' h

theorem next_token_w_none_cases (w d : Char → Bool) (input : List Char) (st : LexerState)
    (st' : LexerState) (h : next_token_w w d input st = (none, st')) :
    st' = (skip_whitespaces input st).1 ∧ input.length ≤ st'.pos := by
  unfold next_token_w at h
  cases hsk : (skip_whitespaces input st).2 with
  | some ch =>
    rw [hsk] at h
    simp only [] at h
    cases hms : match_spec input (skip_whitespaces input st).1.pos ch with
    | some tp =>
      rw [hms] at h
      simp only [Prod.mk.injEq] at h
      exact Option.noConfusion h.1
    | none =>
      rw [hms] at h
      simp only [] at h
      cases hltm : literal_token_matcher_w w d input (skip_whitespaces input st).1.pos with
      | some tp =>
        rw [hltm] at h
        simp only [Prod.mk.injEq] at h
        exact Option.noConfusion h.1
      | none =>
        rw [hltm] at h
        simp only [] at h
        unfold illegal_or_none at h
        by_cases hp : (skip_whitespaces input st).1.pos < input.length
        · rw [if_pos hp] at h
          simp only [Prod.mk.injEq] at h
          exact Option.noConfusion h.1
        · rw [if_neg hp] at h
          simp only [Prod.mk.injEq] at h
          exact ⟨h.2.symm, by rw [← h.2]; omega⟩
  | none =>
    rw [hsk] at h
    simp only [] at h
    cases hltm : literal_token_matcher_w w d input (skip_whitespaces input st).1.pos with
    | some tp =>
      rw [hltm] at h
      simp only [Prod.mk.injEq] at h
      exact Option.noConfusion h.1
    | none =>
      rw [hltm] at h
      simp only [] at h
      unfold illegal_or_none at h
      by_cases hp : (skip_whitespaces input st).1.pos < input.length
      · rw [if_pos hp] at h
        simp only [Prod.mk.injEq] at h
        exact Option.noConfusion h.1
      · rw [if_neg hp] at h
        simp only [Prod.mk.injEq] at h
        exact ⟨h.2.symm, by rw [← h.2]; omega⟩

theorem next_token_none_cases (input : List Char) (st : LexerState)
    (st' : LexerState) (h : next_token input st = (none, st')) :
    st' = (skip_whitespaces input st).1 ∧ input.length ≤ st'.pos :=
  next_token_w_none_cases is_word_char is_nd_digit input st st' h

theorem next_token_w_eof (w d : Char → Bool) (input : List Char) (st : LexerState)
    (h : input.length ≤ st.pos) : next_token_w w d input st = (none, st) := by
  have hd : input.drop st.pos = [] := by
    apply List.eq_nil_of_length_eq_zero
    rw [List.length_drop]
    omega
  have hsk : skip_whitespaces input st = (st, none) := by
    simp [skip_whitespaces, hd, skip_ws_aux]
  have hlt : literal_token_matcher_w w d input st.pos = none := by
    rw [ltm_w_eq]
    simp [hd, match_ident_re_w, match_int_re_w]
  have hil : illegal_or_none input st = (none, st) := by
    unfold illegal_or_none
    rw [if_neg (by omega : ¬ st.pos < input.length)]
  unfold next_token_w
  rw [hsk]
  simp only []
  rw [hlt]
  simp only []
  exact hil

theorem next_token_eof (input : List Char) (st : LexerState)
    (h : input.length ≤ st.pos) : next_token input st = (none, st) :=
  next_token_w_eof is_word_char is_nd_digit input st h

theorem next_token_progress (input : List Char) (st : LexerState) (t : Token)
    (st' : LexerState) (h : next_token input st = (some t, st')) :
    st.pos < st'.pos ∧ st'.pos ≤ input.length := by
  have hsp := skip_pos_le input st
  rcases next_token_some_cases input st t st' h with
    ⟨ch, tp, hsk, hms, ht, hst⟩ | ⟨tp, hltm, ht, hst⟩ | ⟨hlt, ht, hst⟩
  · have hposlt := skip_some_lt input st ch hsk
    obtain ⟨_, _, hcase⟩ := match_spec_inv _ _ _ _ hms
    rw [hst, produce_snd]
    simp only []
    rcases hcase with ⟨he, htk⟩ | ⟨he, htk⟩ | he
    · have h2 : ((input.drop (skip_whitespaces input st).1.pos).take 2).length = 2 := by
        rw [htk]
        rfl
      rw [List.length_take, List.length_drop] at h2
      rw [he]
      omega
    · have h2 : ((input.drop (skip_whitespaces input st).1.pos).take 2).length = 2 := by
        rw [htk]
        rfl
      rw [List.length_take, List.length_drop] at h2
      rw [he]
      omega
    · rw [he]
      omega
  · obtain ⟨n, he, h1, hbl, _, _⟩ := ltm_inv _ _ _ hltm
    rw [hst, produce_snd]
    simp only []
    rw [he]
    omega
  · rw [hst]
    simp only []
    omega

theorem run_aux_length (input : List Char) (f : Nat) (st : LexerState) :
    (tokenize_aux input f st).length ≤ input.length - st.pos := by
  induction f generalizing st with
  | zero => simp [tokenize_aux]
  | succ f ih =>
    cases hnt : next_token input st with
    | mk o st2 =>
      cases o with
      | some t =>
        have hp := next_token_progress input st t st2 hnt
        have hr := ih st2
        simp only [tokenize_aux, hnt, List.length_cons]
        omega
      | none => simp [tokenize_aux, hnt]

theorem length_le_utf8_len (cs : List Char) : cs.length ≤ utf8_len cs := by
  induction cs with
  | nil => simp [utf8_len]
  | cons c t ih =>
    have h1 : 1 ≤ len_utf8 c := by
      unfold len_utf8
      repeat' split
      all_goals omega
    simp only [utf8_len, List.map_cons, List.sum_cons, List.length_cons]
    simp only [utf8_len] at ih
    omega

theorem tokenize_length_le (input : List Char) :
    (tokenize input).length ≤ input.length := by
  have := run_aux_length input (input.length + 1) ⟨0, 0⟩
  simpa [tokenize] using this

theorem next_token_none_fixed (input : List Char) (st st' : LexerState)
    (h : next_token input st = (none, st')) :
    next_token input st' = (none, st') := by
  obtain ⟨_, hle⟩ := next_token_none_cases input st st' h
  exact next_token_eof input st' hle

theorem state_after_fixed (input : List Char) (st' : LexerState)
    (h : next_token input st' = (none, st')) (k : Nat) :
    state_after input k st' = st' := by
  induction k with
  | zero => rfl
  | succ k ih =>
    show state_after input k (next_token input st').2 = st'
    rw [h]
    exact ih

theorem SPEC_ne_nl (ch : Char) (h : ch ∈ SPEC) : (ch == '\n') = false := by
  cases hc : ch == '\n' with
  | false => rfl
  | true =>
    have : ch = '\n' := by simpa using hc
    subst this
    exact absurd h (by decide)

theorem match_spec_span_no_nl (input : List Char) (pos : Nat) (ch : Char)
    (tp : TokenPos) (h : match_spec input pos ch = some tp)
    (hch : input[pos]? = some ch) :
    ∀ c ∈ slice_chars input pos tp.endp, (c == '\n') = false := by
  obtain ⟨_, hmem, hcase⟩ := match_spec_inv _ _ _ _ h
  rcases hcase with ⟨he, htk⟩ | ⟨he, htk⟩ | he
  · intro c hc
    rw [he] at hc
    simp only [slice_chars, Nat.add_sub_cancel_left] at hc
    rw [htk] at hc
    simp only [List.mem_cons, List.not_mem_nil, or_false] at hc
    rcases hc with rfl | rfl <;> rfl
  · intro c hc
    rw [he] at hc
    simp only [slice_chars, Nat.add_sub_cancel_left] at hc
    rw [htk] at hc
    simp only [List.mem_cons, List.not_mem_nil, or_false] at hc
    rcases hc with rfl | rfl <;> rfl
  · intro c hc
    rw [he] at hc
    simp only [slice_chars, Nat.add_sub_cancel_left] at hc
    have hplt : pos < input.length := getElem?_some_lt hch
    have hdc : input.drop pos = input[pos] :: input.drop (pos + 1) :=
      List.drop_eq_getElem_cons hplt
    have hgv : input[pos] = ch := by
      have h2 := List.getElem?_eq_getElem hplt
      rw [h2] at hch
      simpa using hch
    rw [hdc, hgv] at hc
    simp only [List.take_succ_cons, List.take_zero] at hc
    simp only [List.mem_singleton] at hc
    subst hc
    exact SPEC_ne_nl c hmem

theorem ltm_span_no_nl (input : List Char) (pos : Nat) (tp : TokenPos)
    (h : literal_token_matcher input pos = some tp) :
    ∀ c ∈ slice_chars input pos tp.endp, (c == '\n') = false := by
  obtain ⟨n, he, _, _, _, hcase⟩ := ltm_inv _ _ _ h
  intro c hc
  rw [he] at hc
  simp only [slice_chars, Nat.add_sub_cancel_left] at hc
  rcases hcase with ⟨hre, _⟩ | ⟨hre, _⟩
  · obtain ⟨_, _, ⟨c0, rest, hcons, hl0, htake⟩, _⟩ := match_ident_re_inv _ _ hre
    rw [htake] at hc
    rcases List.mem_cons.mp hc with rfl | h1
    · exact char_pred_ne_nl is_ascii_letter rfl c hl0
    · exact char_pred_ne_nl is_word_char rfl c (takeWhile_mem _ _ c h1)
  · obtain ⟨_, _, htake, _⟩ := match_int_re_inv _ _ hre
    rw [htake] at hc
    exact char_pred_ne_nl is_nd_digit rfl c (takeWhile_mem _ _ c hc)

theorem next_token_some_produce (input : List Char) (st : LexerState) (t : Token)
    (st' : LexerState) (h : next_token input st = (some t, st')) :
    (∃ tp, t = (produce input (skip_whitespaces input st).1 tp).1 ∧
      st' = (produce input (skip_whitespaces input st).1 tp).2) ∨
    (t = ⟨TokenType.Illegal, none, (skip_whitespaces input st).1.current_line⟩ ∧
     st' = ⟨input.length, (skip_whitespaces input st).1.current_line⟩) := by
  rcases next_token_some_cases input st t st' h with
    ⟨ch, tp, _, _, ht, hst⟩ | ⟨tp, _, ht, hst⟩ | ⟨_, ht, hst⟩
  · exact Or.inl ⟨tp, ht, hst⟩
  · exact Or.inl ⟨tp, ht, hst⟩
  · exact Or.inr ⟨ht, hst⟩

theorem next_token_line_mono (input : List Char) (st : LexerState) (t : Token)
    (st' : LexerState) (h : next_token input st = (some t, st')) :
    t.line = (skip_whitespaces input st).1.current_line ∧
    st'.current_line = t.line ∧ st.current_line ≤ t.line := by
  have hll := skip_line_le input st
  rcases next_token_some_produce input st t st' h with ⟨tp, ht, hst⟩ | ⟨ht, hst⟩
  · rw [ht, hst, produce_line, produce_snd]
    exact ⟨rfl, rfl, hll⟩
  · rw [ht, hst]
    exact ⟨rfl, rfl, hll⟩

theorem next_token_line_inv (input : List Char) (st : LexerState) (t : Token)
    (st' : LexerState) (hinv : LineInv input st)
    (h : next_token input st = (some t, st')) :
    t.line = nl_count (input.take (skip_whitespaces input st).1.pos) ∧
    (LineInv input st' ∨ input.length ≤ st'.pos) := by
  have hline1 : (skip_whitespaces input st).1.current_line =
      nl_count (input.take (skip_whitespaces input st).1.pos) :=
    skip_line_eq input st hinv.1
  have hbound := next_token_progress input st t st' h
  have hmono := next_token_line_mono input st t st' h
  refine ⟨by rw [hmono.1, hline1], ?_⟩
  rcases next_token_some_cases input st t st' h with
    ⟨ch, tp, hsk, hms, ht, hst⟩ | ⟨tp, hltm, ht, hst⟩ | ⟨_, _, hst⟩
  · left
    obtain ⟨hch, _⟩ := skip_some_char input st ch hsk
    have hspan := match_spec_span_no_nl input _ ch tp hms hch
    obtain ⟨_, _, hcase⟩ := match_spec_inv _ _ _ _ hms
    have hendge : ∃ k, tp.endp = (skip_whitespaces input st).1.pos + k := by
      rcases hcase with ⟨he, _⟩ | ⟨he, _⟩ | he
      · exact ⟨2, he⟩
      · exact ⟨2, he⟩
      · exact ⟨1, he⟩
    obtain ⟨k, hek⟩ := hendge
    constructor
    · rw [hst, produce_snd]
      simp only []
      rw [hek, nl_count_take_split, ← hline1]
      have hz : nl_count ((input.drop (skip_whitespaces input st).1.pos).take k) = 0 := by
        apply nl_count_no_nl
        intro c hc
        apply hspan
        simp only [slice_chars, hek, Nat.add_sub_cancel_left]
        exact hc
      omega
    · have hb2 := hbound.2
      rw [hst, produce_snd] at hb2 ⊢
      simpa using hb2
  · left
    have hspan := ltm_span_no_nl input _ tp hltm
    obtain ⟨n, hek, _, _, _, _⟩ := ltm_inv _ _ _ hltm
    constructor
    · rw [hst, produce_snd]
      simp only []
      rw [hek, nl_count_take_split, ← hline1]
      have hz : nl_count ((input.drop (skip_whitespaces input st).1.pos).take n) = 0 := by
        apply nl_count_no_nl
        intro c hc
        apply hspan
        simp only [slice_chars, hek, Nat.add_sub_cancel_left]
        exact hc
      omega
    · have hb2 := hbound.2
      rw [hst, produce_snd] at hb2 ⊢
      simpa using hb2
  · right
    rw [hst]

theorem run_aux_eof (input : List Char) (f : Nat) (st : LexerState)
    (h : input.length ≤ st.pos) : tokenize_run_aux input f st = [] := by
  cases f with
  | zero => rfl
  | succ f => simp [tokenize_run_aux, next_token_eof input st h]

theorem run_aux_line_eq (input : List Char) (f : Nat) (st : LexerState)
    (hinv : LineInv input st) :
    ∀ p ∈ tokenize_run_aux input f st, p.1.line = nl_count (input.take p.2.1) := by
  induction f generalizing st with
  | zero => intro p hp; simp [tokenize_run_aux] at hp
  | succ f ih =>
    intro p hp
    cases hnt : next_token input st with
    | mk o st2 =>
      cases o with
      | none => rw [tokenize_run_aux, hnt] at hp; simp at hp
      | some t =>
        rw [tokenize_run_aux, hnt] at hp
        obtain ⟨hl1, hrest⟩ := next_token_line_inv input st t st2 hinv hnt
        rcases List.mem_cons.mp hp with rfl | hp2
        · simpa using hl1
        · rcases hrest with hinv2 | heof
          · exact ih st2 hinv2 p hp2
          · rw [run_aux_eof input f st2 heof] at hp2
            simp at hp2

theorem run_aux_line_lb (input : List Char) (f : Nat) (st : LexerState) :
    ∀ p ∈ tokenize_run_aux input f st, st.current_line ≤ p.1.line := by
  induction f generalizing st with
  | zero => intro p hp; simp [tokenize_run_aux] at hp
  | succ f ih =>
    intro p hp
    cases hnt : next_token input st with
    | mk o st2 =>
      cases o with
      | none => rw [tokenize_run_aux, hnt] at hp; simp at hp
      | some t =>
        rw [tokenize_run_aux, hnt] at hp
        have hmono := next_token_line_mono input st t st2 hnt
        rcases List.mem_cons.mp hp with rfl | hp2
        · simpa using hmono.2.2
        · have hlb := ih st2 p hp2
          omega

theorem run_aux_chain (input : List Char) (f : Nat) (st : LexerState) :
    List.Chain' (fun a b => a.1.line ≤ b.1.line) (tokenize_run_aux input f st) := by
  induction f generalizing st with
  | zero => simp [tokenize_run_aux]
  | succ f ih =>
    cases hnt : next_token input st with
    | mk o st2 =>
      cases o with
      | none => rw [tokenize_run_aux, hnt]; simp
      | some t =>
        rw [tokenize_run_aux, hnt]
        rw [List.chain'_cons']
        refine ⟨?_, ih st2⟩
        intro b hb
        have hbm : b ∈ tokenize_run_aux input f st2 := by
          cases hh : (tokenize_run_aux input f st2).head? with
          | none => rw [hh] at hb; simp at hb
          | some q =>
            rw [hh] at hb
            simp only [Option.mem_def, Option.some.injEq] at hb
            subst hb
            exact List.mem_of_mem_head? (by rw [hh]; rfl)
        have hlb := run_aux_line_lb input f st2 b hbm
        have hmono := next_token_line_mono input st t st2 hnt
        simp only []
        omega

theorem run_aux_literal (input : List Char) (f : Nat) (st : LexerState) :
    ∀ p ∈ tokenize_run_aux input f st,
      ((∃ s, p.1.literal = some s) ↔ ∃ l, p.1.token_type = TokenType.Literal l) ∧
      (∀ s, p.1.literal = some s → s = slice_chars input p.2.1 p.2.2) := by
  induction f generalizing st with
  | zero => intro p hp; simp [tokenize_run_aux] at hp
  | succ f ih =>
    intro p hp
    cases hnt : next_token input st with
    | mk o st2 =>
      cases o with
      | none => rw [tokenize_run_aux, hnt] at hp; simp at hp
      | some t =>
        rw [tokenize_run_aux, hnt] at hp
        rcases List.mem_cons.mp hp with rfl | hp2
        · simp only []
          rcases next_token_some_produce input st t st2 hnt with ⟨tp, ht, hst⟩ | ⟨ht, hst⟩
          · by_cases hL : ∃ l, tp.token_type = TokenType.Literal l
            · obtain ⟨l, htt⟩ := hL
              have hlit := produce_literal_lit input (skip_whitespaces input st).1 tp l htt
              have htt2 := produce_token_type input (skip_whitespaces input st).1 tp
              refine ⟨⟨fun _ => ⟨l, by rw [ht, htt2, htt]⟩,
                fun _ => ⟨slice_chars input (skip_whitespaces input st).1.pos tp.endp,
                  by rw [ht, hlit]⟩⟩, ?_⟩
              intro s hs
              rw [ht, hlit] at hs
              simp only [Option.some.injEq] at hs
              subst hs
              rw [hst, produce_snd]
            · have hnl : ∀ l, tp.token_type ≠ TokenType.Literal l :=
                fun l hl => hL ⟨l, hl⟩
              have hlit := produce_literal_none input (skip_whitespaces input st).1 tp hnl
              have htt2 := produce_token_type input (skip_whitespaces input st).1 tp
              refine ⟨⟨?_, ?_⟩, ?_⟩
              · rintro ⟨s, hs⟩
                rw [ht, hlit] at hs
                exact Option.noConfusion hs
              · rintro ⟨l, hl⟩
                rw [ht, htt2] at hl
                exact absurd hl (hnl l)
              · intro s hs
                rw [ht, hlit] at hs
                exact Option.noConfusion hs
          · refine ⟨⟨?_, ?_⟩, ?_⟩
            · rintro ⟨s, hs⟩
              rw [ht] at hs
              exact Option.noConfusion hs
            · rintro ⟨l, hl⟩
              rw [ht] at hl
              exact TokenType.noConfusion hl
            · intro s hs
              rw [ht] at hs
              exact Option.noConfusion hs
        · exact ih st2 p hp2

theorem next_token_w_illegal (w d : Char → Bool) (input : List Char) (st : LexerState) (ch : Char)
    (hsk : (skip_whitespaces input st).2 = some ch)
    (hms : match_spec input (skip_whitespaces input st).1.pos ch = none)
    (hltm : literal_token_matcher_w w d input (skip_whitespaces input st).1.pos = none) :
    next_token_w w d input st =
      (some ⟨TokenType.Illegal, none, (skip_whitespaces input st).1.current_line⟩,
       ⟨input.length, (skip_whitespaces input st).1.current_line⟩) := by
  have hlt := skip_some_lt input st ch hsk
  unfold next_token_w
  rw [hsk]
  simp only []
  rw [hms]
  simp only []
  rw [hltm]
  simp only []
  unfold illegal_or_none
  rw [if_pos hlt]

theorem next_token_illegal (input : List Char) (st : LexerState) (ch : Char)
    (hsk : (skip_whitespaces input st).2 = some ch)
    (hms : match_spec input (skip_whitespaces input st).1.pos ch = none)
    (hltm : literal_token_matcher input (skip_whitespaces input st).1.pos = none) :
    next_token input st =
      (some ⟨TokenType.Illegal, none, (skip_whitespaces input st).1.current_line⟩,
       ⟨input.length, (skip_whitespaces input st).1.current_line⟩) :=
  next_token_w_illegal is_word_char is_nd_digit input st ch hsk hms hltm

theorem next_token_pos_bound (input : List Char) (st : LexerState)
    (h : st.pos ≤ input.length) :
    (next_token input st).2.pos ≤ input.length := by
  cases hnt : next_token input st with
  | mk o st2 =>
    cases o with
    | some t => exact (next_token_progress input st t st2 hnt).2
    | none =>
      obtain ⟨hst2, _⟩ := next_token_none_cases input st st2 hnt
      rw [hst2]
      exact skip_pos_bound input st h

theorem state_after_bound (input : List Char) (k : Nat) (st : LexerState)
    (h : st.pos ≤ input.length) :
    (state_after input k st).pos ≤ input.length := by
  induction k generalizing st with
  | zero => exact h
  | succ k ih =>
    show (state_after input k (next_token input st).2).pos ≤ input.length
    exact ih _ (next_token_pos_bound input st h)

theorem letter_not_digit (c : Char) (h1 : is_ascii_letter c = true)
    (h2 : is_nd_digit c = true) : False := by
  simp [is_ascii_letter, is_nd_digit, is_ascii_digit] at h1 h2
  omega

theorem from_int_keyword_string : ∀ (j : Nat) (k : Keyword) (sp : List Char),
    Keyword.from_int j = some k → KEYWORDS[j]? = some sp → keyword_string k = sp
  | 0, k, sp, h1, h2 => by
    injection h1 with h1
    subst h1
    injection h2 with h2
  | 1, k, sp, h1, h2 => by
    injection h1 with h1
    subst h1
    injection h2 with h2
  | 2, k, sp, h1, h2 => by
    injection h1 with h1
    subst h1
    injection h2 with h2
  | 3, k, sp, h1, h2 => by
    injection h1 with h1
    subst h1
    injection h2 with h2
  | 4, k, sp, h1, h2 => by
    injection h1 with h1
    subst h1
    injection h2 with h2
  | 5, k, sp, h1, h2 => by
    injection h1 with h1
    subst h1
    injection h2 with h2
  | 6, k, sp, h1, h2 => by
    injection h1 with h1
    subst h1
    injection h2 with h2
  | (j + 7), k, sp, h1, _ => by exact Option.noConfusion h1

theorem ltm_w_literal_shape (w d : Char → Bool) (input : List Char) (pos : Nat) (tp : TokenPos)
    (h : literal_token_matcher_w w d input pos = some tp) :
    (tp.token_type = TokenType.Literal Literal.Ident →
      (∃ c cs, slice_chars input pos tp.endp = c :: cs ∧ is_ascii_letter c = true ∧
        ∀ x ∈ cs, w x = true) ∧
      (∀ c, input[tp.endp]? = some c → w c = false)) ∧
    (tp.token_type = TokenType.Literal Literal.Int →
      (slice_chars input pos tp.endp ≠ [] ∧
        ∀ x ∈ slice_chars input pos tp.endp, d x = true) ∧
      (∀ c, input[tp.endp]? = some c → d c = false)) := by
  obtain ⟨n, he, hn1, hbl, hkwc, hcase⟩ := ltm_w_inv w d _ _ _ h
  have hslice : slice_chars input pos tp.endp = (input.drop pos).take n := by
    rw [he]
    simp [slice_chars, Nat.add_sub_cancel_left]
  constructor
  · intro htt
    rcases hcase with ⟨hre, himp⟩ | ⟨hre, himp⟩
    · obtain ⟨_, _, ⟨c0, rest, hcons, hl0, htake⟩, hmax⟩ := match_ident_re_w_inv w _ _ hre
      constructor
      · refine ⟨c0, rest.takeWhile w, by rw [hslice, htake], hl0, ?_⟩
        intro x hx
        exact takeWhile_mem _ _ x hx
      · intro c hc
        apply hmax c
        rw [getElem?_drop_add]
        rw [he] at hc
        exact hc
    · cases hkw : kw_lookup KEYWORDS (slice_chars input pos (pos + n)) with
      | some j =>
        obtain ⟨k, _, htk⟩ := hkwc j hkw
        rw [htt] at htk
        exact TokenType.noConfusion htk
      | none =>
        have hi := himp hkw
        rw [htt] at hi
        simp at hi
  · intro htt
    rcases hcase with ⟨hre, himp⟩ | ⟨hre, himp⟩
    · cases hkw : kw_lookup KEYWORDS (slice_chars input pos (pos + n)) with
      | some j =>
        obtain ⟨k, _, htk⟩ := hkwc j hkw
        rw [htt] at htk
        exact TokenType.noConfusion htk
      | none =>
        have hi := himp hkw
        rw [htt] at hi
        simp at hi
    · obtain ⟨_, _, htake, hmax⟩ := match_int_re_w_inv d _ _ hre
      constructor
      · constructor
        · rw [hslice]
          intro hnil
          have hlen2 := congrArg List.length hnil
          simp only [List.length_take, List.length_drop, List.length_nil] at hlen2
          omega
        · intro x hx
          rw [hslice, htake] at hx
          exact takeWhile_mem _ _ x hx
      · intro c hc
        apply hmax c
        rw [getElem?_drop_add]
        rw [he] at hc
        exact hc

theorem ltm_literal_shape (input : List Char) (pos : Nat) (tp : TokenPos)
    (h : literal_token_matcher input pos = some tp) :
    (tp.token_type = TokenType.Literal Literal.Ident →
      (∃ c cs, slice_chars input pos tp.endp = c :: cs ∧ is_ascii_letter c = true ∧
        ∀ x ∈ cs, is_word_char x = true) ∧
      (∀ c, input[tp.endp]? = some c → is_word_char c = false)) ∧
    (tp.token_type = TokenType.Literal Literal.Int →
      (slice_chars input pos tp.endp ≠ [] ∧
        ∀ x ∈ slice_chars input pos tp.endp, is_nd_digit x = true) ∧
      (∀ c, input[tp.endp]? = some c → is_nd_digit c = false)) :=
  ltm_w_literal_shape is_word_char is_nd_digit input pos tp h

theorem run_aux_literal_origin (input : List Char) (f : Nat) (st : LexerState) :
    ∀ p ∈ tokenize_run_aux input f st, ∀ l, p.1.token_type = TokenType.Literal l →
      literal_token_matcher input p.2.1 = some ⟨TokenType.Literal l, p.2.2⟩ := by
  induction f generalizing st with
  | zero => intro p hp; simp [tokenize_run_aux] at hp
  | succ f ih =>
    intro p hp l hl
    cases hnt : next_token input st with
    | mk o st2 =>
      cases o with
      | none => rw [tokenize_run_aux, hnt] at hp; simp at hp
      | some t =>
        rw [tokenize_run_aux, hnt] at hp
        rcases List.mem_cons.mp hp with rfl | hp2
        · simp only [] at hl ⊢
          rcases next_token_some_cases input st t st2 hnt with
            ⟨ch, tp, hsk, hms, ht, hst⟩ | ⟨tp, hltm, ht, hst⟩ | ⟨_, ht, _⟩
          · obtain ⟨⟨s, hts⟩, _, _⟩ := match_spec_inv _ _ _ _ hms
            rw [ht, produce_token_type, hts] at hl
            exact TokenType.noConfusion hl
          · obtain ⟨tt, ep⟩ := tp
            rw [ht, produce_token_type] at hl
            simp only [] at hl
            rw [hst, produce_snd]
            simp only []
            rw [← hl]
            exact hltm
          · rw [ht] at hl
            simp only [] at hl
            exact TokenType.noConfusion hl
        · exact ih st2 p hp2 l hl

theorem run_aux_literal_origin_w (w d : Char → Bool) (input : List Char) (f : Nat) (st : LexerState) :
    ∀ p ∈ tokenize_run_aux_w w d input f st, ∀ l, p.1.token_type = TokenType.Literal l →
      literal_token_matcher_w w d input p.2.1 = some ⟨TokenType.Literal l, p.2.2⟩ := by
  induction f generalizing st with
  | zero => intro p hp; simp [tokenize_run_aux_w] at hp
  | succ f ih =>
    intro p hp l hl
    cases hnt : next_token_w w d input st with
    | mk o st2 =>
      cases o with
      | none => rw [tokenize_run_aux_w, hnt] at hp; simp at hp
      | some t =>
        rw [tokenize_run_aux_w, hnt] at hp
        rcases List.mem_cons.mp hp with rfl | hp2
        · simp only [] at hl ⊢
          rcases next_token_w_some_cases w d input st t st2 hnt with
            ⟨ch, tp, hsk, hms, ht, hst⟩ | ⟨tp, hltm, ht, hst⟩ | ⟨_, ht, _⟩
          · obtain ⟨⟨s, hts⟩, _, _⟩ := match_spec_inv _ _ _ _ hms
            rw [ht, produce_token_type, hts] at hl
            exact TokenType.noConfusion hl
          · obtain ⟨tt, ep⟩ := tp
            rw [ht, produce_token_type] at hl
            simp only [] at hl
            rw [hst, produce_snd]
            simp only []
            rw [← hl]
            exact hltm
          · rw [ht] at hl
            simp only [] at hl
            exact TokenType.noConfusion hl
        · exact ih st2 p hp2 l hl

theorem tokenize_run_aux_w_model (input : List Char) (f : Nat) (st : LexerState) :
    tokenize_run_aux_w is_word_char is_nd_digit input f st =
      tokenize_run_aux input f st := by
  induction f generalizing st with
  | zero => rfl
  | succ f ih =>
    rw [tokenize_run_aux_w, tokenize_run_aux]
    rw [show next_token_w is_word_char is_nd_digit input st = next_token input st
      from rfl]
    cases hnt : next_token input st with
    | mk o st2 =>
      cases o with
      | some t => simp only [ih]
      | none => rfl

theorem tokenize_run_w_model (input : List Char) :
    tokenize_run_w is_word_char is_nd_digit input = tokenize_run input :=
  tokenize_run_aux_w_model input (input.length + 1) ⟨0, 0⟩

/-- C1 counterexample: on input "aб" the scan produces a single
`Literal(Ident)` token whose matched span is "aб", and the Cyrillic letter б in
that span lies outside the ASCII letter/digit/underscore sets — the regex
crate's `\\w` is Unicode-aware, so the claim as stated fails. -/
theorem claim_c1_counterexample :
    tokenize (String.toList "aб") =
      [⟨TokenType.Literal Literal.Ident, some ['a', 'б'], 0⟩] ∧
    'б' ∈ ['a', 'б'] ∧
    (is_ascii_letter 'б' || is_ascii_digit 'б' || 'б' == '_') = false := by
  refine ⟨by decide, by decide, by decide⟩

/-- C1 (amended): for every choice of the `\\w` and `\\d` character classes —
in particular the regex crate's default Unicode-aware classes
(`Alphabetic ∪ Mark ∪ Nd ∪ Connector_Punctuation ∪ Join_Control` and `Nd`),
whose full tables cannot be transcribed here — the scanner built on those
classes recognizes an identifier as exactly one ASCII letter followed by a
maximal run of `\\w` characters, and an integer as exactly a maximal nonempty
run of `\\d` characters; since those Unicode classes strictly contain the
ASCII letter/digit/underscore sets, a produced Literal token's span may
contain non-ASCII characters.  At the modelled classes the parametric scanner
coincides with the executable `tokenize_run`. -/
theorem claim_c1_amended :
    (∀ (w d : Char → Bool) (input : List Char), ∀ p ∈ tokenize_run_w w d input,
      (p.1.token_type = TokenType.Literal Literal.Ident →
        (∃ c cs, slice_chars input p.2.1 p.2.2 = c :: cs ∧
          is_ascii_letter c = true ∧ ∀ x ∈ cs, w x = true) ∧
        (∀ c, input[p.2.2]? = some c → w c = false)) ∧
      (p.1.token_type = TokenType.Literal Literal.Int →
        (slice_chars input p.2.1 p.2.2 ≠ [] ∧
          ∀ x ∈ slice_chars input p.2.1 p.2.2, d x = true) ∧
        (∀ c, input[p.2.2]? = some c → d c = false))) ∧
    (∀ input, tokenize_run_w is_word_char is_nd_digit input = tokenize_run input) := by
  constructor
  · intro w d input p hp
    constructor
    · intro htt
      have horig := run_aux_literal_origin_w w d input _ _ p hp Literal.Ident htt
      exact (ltm_w_literal_shape w d input p.2.1 _ horig).1 rfl
    · intro htt
      have horig := run_aux_literal_origin_w w d input _ _ p hp Literal.Int htt
      exact (ltm_w_literal_shape w d input p.2.1 _ horig).2 rfl
  · exact tokenize_run_w_model

/-- C1 amended, witness at input "xα" with a word class containing the Greek
letter α (as the regex crate's `\\w` does): the produced identifier token
spans "xα", one ASCII letter followed by a maximal run of class characters
reaching beyond ASCII. -/
theorem claim_c1_amended_witness :
    ((⟨TokenType.Literal Literal.Ident, some ['x', 'α'], 0⟩, 0, 2) ∈
      tokenize_run_w (fun c => is_word_char c || c == 'α') is_nd_digit
        (String.toList "xα")) ∧
    ((∃ c cs, slice_chars (String.toList "xα") 0 2 = c :: cs ∧
        is_ascii_letter c = true ∧
        ∀ x ∈ cs, (is_word_char x || x == 'α') = true) ∧
      (∀ c, (String.toList "xα")[2]? = some c →
        (is_word_char c || c == 'α') = false)) :=
  ⟨by decide,
    (claim_c1_amended.1 (fun c => is_word_char c || c == 'α') is_nd_digit
      (String.toList "xα")
      (⟨TokenType.Literal Literal.Ident, some ['x', 'α'], 0⟩, 0, 2)
      (by decide)).1 (by decide)⟩

/-- C2: whenever whitespace skipping stops at a character at which neither the
symbol matcher nor the word/number matcher matches, the scanner emits exactly
one Illegal token (no literal text, current line) and jumps the cursor to the
end of the input, after which the next call yields nothing; and the input
"-66 бррр" yields exactly Minus, Literal(Int,"66"), Illegal. -/
theorem claim_c2 :
    (∀ (input : List Char) (st : LexerState) (ch : Char),
      (skip_whitespaces input st).2 = some ch →
      match_spec input (skip_whitespaces input st).1.pos ch = none →
      literal_token_matcher input (skip_whitespaces input st).1.pos = none →
      next_token input st =
        (some ⟨TokenType.Illegal, none, (skip_whitespaces input st).1.current_line⟩,
         ⟨input.length, (skip_whitespaces input st).1.current_line⟩) ∧
      next_token input ⟨input.length, (skip_whitespaces input st).1.current_line⟩ =
        (none, ⟨input.length, (skip_whitespaces input st).1.current_line⟩)) ∧
    tokenize (String.toList "-66 бррр") =
      [⟨TokenType.Spec Spec.Minus, none, 0⟩,
       ⟨TokenType.Literal Literal.Int, some ['6', '6'], 0⟩,
       ⟨TokenType.Illegal, none, 0⟩] := by
  constructor
  · intro input st ch h1 h2 h3
    refine ⟨next_token_illegal input st ch h1 h2 h3, ?_⟩
    exact next_token_eof input ⟨input.length, (skip_whitespaces input st).1.current_line⟩
      (le_refl _)
  · decide

/-- C2 witness at input "б": the scanner stops at б, both matchers miss, and
one Illegal token is produced with the cursor jumped to the end. -/
theorem claim_c2_witness :
    (skip_whitespaces (String.toList "б") ⟨0, 0⟩).2 = some 'б' ∧
    match_spec (String.toList "б")
      (skip_whitespaces (String.toList "б") ⟨0, 0⟩).1.pos 'б' = none ∧
    literal_token_matcher (String.toList "б")
      (skip_whitespaces (String.toList "б") ⟨0, 0⟩).1.pos = none ∧
    next_token (String.toList "б") ⟨0, 0⟩ =
      (some ⟨TokenType.Illegal, none,
        (skip_whitespaces (String.toList "б") ⟨0, 0⟩).1.current_line⟩,
       ⟨(String.toList "б").length,
        (skip_whitespaces (String.toList "б") ⟨0, 0⟩).1.current_line⟩) :=
  ⟨by decide, by decide, by decide,
    (claim_c2.1 (String.toList "б") ⟨0, 0⟩ 'б' (by decide) (by decide) (by decide)).1⟩

/-- C3: whenever the word matcher produces a token, a matched substring equal
(case-sensitively, over its full span) to a reserved word yields the
corresponding Keyword kind; an identifier-shaped substring that is not a
reserved word yields Literal(Ident); and a Literal(Ident) token is never a
reserved word — so "lettuce" is an identifier, not the keyword let. -/
theorem claim_c3 : ∀ (input : List Char) (start : Nat) (tp : TokenPos),
    literal_token_matcher input start = some tp →
    ((slice_chars input start tp.endp ∈ KEYWORDS →
       ∃ k, tp.token_type = TokenType.Keyword k ∧
         keyword_string k = slice_chars input start tp.endp) ∧
     (is_ident_shaped (slice_chars input start tp.endp) = true ∧
        slice_chars input start tp.endp ∉ KEYWORDS →
       tp.token_type = TokenType.Literal Literal.Ident) ∧
     (tp.token_type = TokenType.Literal Literal.Ident →
       slice_chars input start tp.endp ∉ KEYWORDS)) := by
  intro input start tp h
  obtain ⟨n, he, hn1, hbl, hkwc, hcase⟩ := ltm_inv _ _ _ h
  rw [he]
  refine ⟨?_, ?_, ?_⟩
  · intro hmem
    have hsome : (kw_lookup KEYWORDS (slice_chars input start (start + n))).isSome = true :=
      (kw_lookup_isSome_iff _ _).mpr hmem
    cases hkw : kw_lookup KEYWORDS (slice_chars input start (start + n)) with
    | none => rw [hkw] at hsome; simp at hsome
    | some j =>
      obtain ⟨k, hfi, htk⟩ := hkwc j hkw
      exact ⟨k, htk, from_int_keyword_string j k _ hfi (kw_lookup_some_get _ _ _ hkw)⟩
  · rintro ⟨hshape, hnmem⟩
    cases hkw : kw_lookup KEYWORDS (slice_chars input start (start + n)) with
    | some j =>
      have hsome : (kw_lookup KEYWORDS (slice_chars input start (start + n))).isSome = true := by
        rw [hkw]; rfl
      exact absurd ((kw_lookup_isSome_iff _ _).mp hsome) hnmem
    | none =>
      rcases hcase with ⟨hre, himp⟩ | ⟨hre, himp⟩
      · exact himp hkw
      · obtain ⟨_, _, htake, _⟩ := match_int_re_inv _ _ hre
        have hslice : slice_chars input start (start + n) = (input.drop start).take n := by
          simp [slice_chars, Nat.add_sub_cancel_left]
        rw [hslice, htake] at hshape
        cases hcs : (input.drop start).takeWhile is_nd_digit with
        | nil => rw [hcs] at hshape; simp [is_ident_shaped] at hshape
        | cons c0 cs =>
          rw [hcs] at hshape
          simp only [is_ident_shaped, Bool.and_eq_true] at hshape
          have hd0 : is_nd_digit c0 = true := by
            apply takeWhile_mem is_nd_digit (input.drop start)
            rw [hcs]
            exact List.mem_cons_self _ _
          exact (letter_not_digit c0 hshape.1 hd0).elim
  · intro htt hmem
    have hsome : (kw_lookup KEYWORDS (slice_chars input start (start + n))).isSome = true :=
      (kw_lookup_isSome_iff _ _).mpr hmem
    cases hkw : kw_lookup KEYWORDS (slice_chars input start (start + n)) with
    | none => rw [hkw] at hsome; simp at hsome
    | some j =>
      obtain ⟨k, _, htk⟩ := hkwc j hkw
      rw [htt] at htk
      exact TokenType.noConfusion htk

/-- C3 witness: "lettuce" matches as an identifier spanning the whole word, is
not a reserved word, and the produced kind is Literal(Ident), not Keyword(Let). -/
theorem claim_c3_witness :
    literal_token_matcher (String.toList "lettuce") 0 =
      some ⟨TokenType.Literal Literal.Ident, 7⟩ ∧
    is_ident_shaped (slice_chars (String.toList "lettuce") 0 7) = true ∧
    slice_chars (String.toList "lettuce") 0 7 ∉ KEYWORDS ∧
    (⟨TokenType.Literal Literal.Ident, 7⟩ : TokenPos).token_type =
      TokenType.Literal Literal.Ident :=
  ⟨by decide, by decide, by decide,
    (claim_c3 (String.toList "lettuce") 0 ⟨TokenType.Literal Literal.Ident, 7⟩
      (by decide)).2.1 ⟨by decide, by decide⟩⟩

/-- C4: at a position whose character is in the punctuation table, the
two-character patterns win: a "==" prefix yields one Equal token ending two
characters later (never Assign), a "!=" prefix yields one NotEqual token
(never Bang then Assign), and otherwise the single-character kind from the
fixed table is produced, ending one character later. -/
theorem claim_c4 : ∀ (input : List Char) (start : Nat) (ch : Char) (s : Spec),
    spec_of ch = some s →
    ((starts_with (input.drop start) ['=', '='] = true →
       match_spec input start ch = some ⟨TokenType.Spec Spec.Equal, start + 2⟩) ∧
     (starts_with (input.drop start) ['!', '='] = true →
       match_spec input start ch = some ⟨TokenType.Spec Spec.NotEqual, start + 2⟩) ∧
     (starts_with (input.drop start) ['=', '='] = false →
       starts_with (input.drop start) ['!', '='] = false →
       match_spec input start ch = some ⟨TokenType.Spec s, start + 1⟩)) := by
  intro input start ch s hs
  unfold spec_of at hs
  cases hf : find_char_idx SPEC ch with
  | none => rw [hf] at hs; exact Option.noConfusion hs
  | some i =>
    rw [hf] at hs
    have hs2 : Spec.from_int i = some s := hs
    rw [match_spec_eq, hf]
    simp only []
    refine ⟨?_, ?_, ?_⟩
    · intro h1
      rw [h1, if_pos rfl]
    · intro h2
      have h1 : starts_with (input.drop start) ['=', '='] = false := by
        cases hcc : starts_with (input.drop start) ['=', '='] with
        | false => rfl
        | true =>
          have ht1 := (starts_with_take _ _ hcc).1
          have ht2 := (starts_with_take _ _ h2).1
          simp only [List.length_cons, List.length_nil] at ht1 ht2
          rw [ht1] at ht2
          simp at ht2
      rw [h1]
      simp only [Bool.false_eq_true, if_false]
      rw [h2, if_pos rfl]
    · intro h1 h2
      rw [h1, h2]
      simp only [Bool.false_eq_true, if_false]
      rw [hs2]
      rfl

/-- C4 witness at input "==" with current character '=': the scanner yields
one Equal token spanning both characters, not Assign. -/
theorem claim_c4_witness :
    spec_of '=' = some Spec.Assign ∧
    starts_with ((String.toList "==").drop 0) ['=', '='] = true ∧
    match_spec (String.toList "==") 0 '=' =
      some ⟨TokenType.Spec Spec.Equal, 0 + 2⟩ :=
  ⟨by decide, by decide,
    (claim_c4 (String.toList "==") 0 '=' Spec.Assign (by decide)).1 (by decide)⟩

/-- C5: across any scan, the line numbers stamped on the token sequence are
non-decreasing, and each token's zero-based line number equals the number of
newline characters occurring strictly before the token's first character. -/
theorem claim_c5 : ∀ (input : List Char),
    List.Chain' (fun a b => a.1.line ≤ b.1.line) (tokenize_run input) ∧
    ∀ p ∈ tokenize_run input, p.1.line = nl_count (input.take p.2.1) :=
  fun input => ⟨run_aux_chain input _ _,
    run_aux_line_eq input _ _ ⟨by simp [nl_count], Nat.zero_le _⟩⟩

/-- C5 witness at input "a\nb": the token after the newline is stamped with
line 1, the newline count strictly before its start offset. -/
theorem claim_c5_witness :
    ((⟨TokenType.Literal Literal.Ident, some ['b'], 1⟩, 2, 3) ∈
      tokenize_run (String.toList "a\nb")) ∧
    (1 : Nat) = nl_count ((String.toList "a\nb").take 2) :=
  ⟨by decide, (claim_c5 (String.toList "a\nb")).2
    (⟨TokenType.Literal Literal.Ident, some ['b'], 1⟩, 2, 3) (by decide)⟩

/-- C6: tokenizing "let x = 5 + 5;" yields exactly the seven tokens
Let, Ident "x", Assign, Int "5", Plus, Int "5", Semicolon, all on line 0. -/
theorem claim_c6 : tokenize (String.toList "let x = 5 + 5;") =
    [⟨TokenType.Keyword Keyword.Let, none, 0⟩,
     ⟨TokenType.Literal Literal.Ident, some ['x'], 0⟩,
     ⟨TokenType.Spec Spec.Assign, none, 0⟩,
     ⟨TokenType.Literal Literal.Int, some ['5'], 0⟩,
     ⟨TokenType.Spec Spec.Plus, none, 0⟩,
     ⟨TokenType.Literal Literal.Int, some ['5'], 0⟩,
     ⟨TokenType.Spec Spec.Semicolon, none, 0⟩] := by
  decide

/-- C7: every produced token carries literal text exactly when its kind is a
Literal variant, and the stored text is the exact input substring between the
token's start and end offsets. -/
theorem claim_c7 : ∀ (input : List Char), ∀ p ∈ tokenize_run input,
    ((∃ s, p.1.literal = some s) ↔ ∃ l, p.1.token_type = TokenType.Literal l) ∧
    (∀ s, p.1.literal = some s → s = slice_chars input p.2.1 p.2.2) :=
  fun input => run_aux_literal input _ _

/-- C7 witness at input "5": the Int token stores exactly the substring between
its start and end offsets. -/
theorem claim_c7_witness :
    ((⟨TokenType.Literal Literal.Int, some ['5'], 0⟩, 0, 1) ∈
      tokenize_run (String.toList "5")) ∧
    ['5'] = slice_chars (String.toList "5") 0 1 :=
  ⟨by decide, (claim_c7 (String.toList "5")
    (⟨TokenType.Literal Literal.Int, some ['5'], 0⟩, 0, 1) (by decide)).2
    ['5'] (by decide)⟩

/-- C8: each produced token strictly advances the cursor, which never exceeds
the input length, so the token sequence of an input is finite — its length is
at most the number of characters and hence at most the number of UTF-8 bytes
of the input. -/
theorem claim_c8 : ∀ (input : List Char),
    (∀ (st : LexerState) (t : Token) (st2 : LexerState),
      next_token input st = (some t, st2) →
      st.pos < st2.pos ∧ st2.pos ≤ input.length) ∧
    (tokenize input).length ≤ input.length ∧
    (tokenize input).length ≤ utf8_len input :=
  fun input => ⟨fun st t st2 h => next_token_progress input st t st2 h,
    tokenize_length_le input,
    le_trans (tokenize_length_le input) (length_le_utf8_len input)⟩

/-- C8 witness at input "ab": one token is produced and the cursor advances
from 0 to 2, within bounds. -/
theorem claim_c8_witness :
    next_token (String.toList "ab") ⟨0, 0⟩ =
      (some ⟨TokenType.Literal Literal.Ident, some ['a', 'b'], 0⟩, ⟨2, 0⟩) ∧
    ((0 : Nat) < 2 ∧ (2 : Nat) ≤ (String.toList "ab").length) :=
  ⟨by decide, (claim_c8 (String.toList "ab")).1 ⟨0, 0⟩
    ⟨TokenType.Literal Literal.Ident, some ['a', 'b'], 0⟩ ⟨2, 0⟩ (by decide)⟩

/-- C9: once a call to next_token returns no token, every subsequent call on
the resulting state also returns no token with the state unchanged — the scan
never re-enters the producing state. -/
theorem claim_c9 : ∀ (input : List Char) (st st2 : LexerState),
    next_token input st = (none, st2) →
    ∀ k, next_token input (state_after input k st2) =
      (none, state_after input k st2) := by
  intro input st st2 h k
  have hfix := next_token_none_fixed input st st2 h
  rw [state_after_fixed input st2 hfix k]
  exact hfix

/-- C9 witness on the empty input: the first call returns nothing, and after
any further step the call still returns nothing. -/
theorem claim_c9_witness :
    next_token ([] : List Char) ⟨0, 0⟩ = (none, ⟨0, 0⟩) ∧
    next_token ([] : List Char) (state_after [] 1 ⟨0, 0⟩) =
      (none, state_after [] 1 ⟨0, 0⟩) :=
  ⟨by decide, claim_c9 [] ⟨0, 0⟩ ⟨0, 0⟩ (by decide) 1⟩

/-- C10: along any scan from the initial state, the cursor lies within the
input both before and after whitespace skipping and after each step, so every
slicing operation (`input.drop pos`, `take`) is in bounds; in the
character-indexed embedding the cursor is a character boundary by construction,
and a classifier miss is an ordinary `none` result of the total functions
`match_spec` and `literal_token_matcher`, not a fault. -/
theorem claim_c10 : ∀ (input : List Char) (k : Nat),
    (state_after input k ⟨0, 0⟩).pos ≤ input.length ∧
    (skip_whitespaces input (state_after input k ⟨0, 0⟩)).1.pos ≤ input.length ∧
    (next_token input (state_after input k ⟨0, 0⟩)).2.pos ≤ input.length := by
  intro input k
  have h0 := state_after_bound input k ⟨0, 0⟩ (Nat.zero_le _)
  exact ⟨h0, skip_pos_bound input _ h0, next_token_pos_bound input _ h0⟩

end Pomidor
